import Mathlib

/-!
Verification of the client-side synchronization core of a two-party chat
application. The definitions below are a shallow embedding of the TypeScript
source (`src/hooks/useChat.ts` and the extended hook variant that adds edit
history and the recurring scheduler). Remote documents, timestamps and ids
are modelled with `Nat`/`String`; every asynchronous remote operation is
modelled as an atomic state transition.
-/

namespace ChatApp

/-- The two fixed chat participants (`type User = ...` in `src/types/index.ts`,
the two emoji identities). -/
inductive User : Type
  | ladybug
  | lizard
deriving DecidableEq, Repr

/-- A message as parsed by the listener/pagination code from a store document
(`id`, `sender`, `timestamp`, `delivered`, `read`, `text`). Timestamps are
modelled as `Nat` (milliseconds); ids as `Nat`. -/
structure Message where
  id : Nat
  sender : User
  timestamp : Nat
  text : String
  delivered : Bool
  read : Bool
deriving DecidableEq, Repr

namespace Feed

/-! Embedding of `setupMessageListener` in `src/hooks/useChat.ts` (lines
203-300): the snapshot callback folds the `docChanges()` array over the
previous local list, tracking a `hasChanges` flag, and finally sorts by
timestamp ascending when anything changed. -/

/-- The ids of a message list, in order. -/
def ids (l : List Message) : List Nat := l.map Message.id

/-- Mirrors `updatedMessages.findIndex(m => m.id === messageId) !== -1`. -/
def containsId (l : List Message) (i : Nat) : Bool := l.any (fun m => m.id == i)

/-- Mirrors `updatedMessages[existingIndex] = message` after a successful
`findIndex`: replace the first element carrying this id. -/
def replaceById (m : Message) : List Message → List Message
  | [] => []
  | x :: xs => if x.id = m.id then m :: xs else x :: replaceById m xs

/-- Mirrors `updatedMessages.splice(existingIndex, 1)` after a successful
`findIndex`: remove the first element carrying this id. -/
def removeById (i : Nat) : List Message → List Message
  | [] => []
  | x :: xs => if x.id = i then xs else x :: removeById i xs

/-- A Firestore `docChange` type. -/
inductive ChangeType : Type
  | added
  | modified
  | removed
deriving DecidableEq, Repr

/-- One feed notification: a change type plus the message parsed from the
changed document. -/
structure DocChange where
  type : ChangeType
  msg : Message
deriving DecidableEq, Repr

/-- One iteration of the `changes.forEach` loop, acting on the accumulated
list and the `hasChanges` flag:
an `added` change is ignored when the id is already present, otherwise the
message is pushed; a `modified` change replaces in place when present and is
pushed otherwise; a `removed` change deletes the first occurrence by id. -/
def applyChange : List Message × Bool → DocChange → List Message × Bool
  | (l, h), c =>
    match c.type with
    | .added =>
        if containsId l c.msg.id then (l, h) else (l ++ [c.msg], true)
    | .modified =>
        if containsId l c.msg.id then (replaceById c.msg l, true)
        else (l ++ [c.msg], true)
    | .removed =>
        if containsId l c.msg.id then (removeById c.msg.id l, true) else (l, h)

/-- The comparator `(a, b) => a.timestamp.getTime() - b.timestamp.getTime()`:
ascending creation time. -/
def byTime (a b : Message) : Prop := a.timestamp ≤ b.timestamp

instance : DecidableRel byTime := fun a b => Nat.decLe a.timestamp b.timestamp

instance : IsTotal Message byTime := ⟨fun a b => Nat.le_total a.timestamp b.timestamp⟩

instance : IsTrans Message byTime := ⟨fun _ _ _ => Nat.le_trans⟩

/-- The whole snapshot callback: fold all changes, then
`updatedMessages.sort(...)` when `hasChanges`, else return `prevMessages`. -/
def processChanges (prev : List Message) (changes : List DocChange) : List Message :=
  if (changes.foldl applyChange (prev, false)).2 then
    (changes.foldl applyChange (prev, false)).1.insertionSort byTime
  else prev

/-- A run of the listener over a sequence of snapshots. -/
def runFeed (prev : List Message) (snaps : List (List DocChange)) : List Message :=
  snaps.foldl processChanges prev

/-- The local-list well-formedness invariant: sorted ascending by timestamp
and no two entries share an id. -/
def WF (l : List Message) : Prop := l.Sorted byTime ∧ (ids l).Nodup

end Feed

namespace Tracker

/-! Embedding of the Delivery/Read Tracker and its interaction with presence:
`batchMarkMessagesAsRead` (useChat.ts lines 141-171), the read/delivered side
effects of the message listener (lines 270-290), the read-enqueue blocks of
`loadInitialMessages`/`loadMoreMessages` (lines 662-679 and 746-763), and the
`isOnlineRef`/`connectionStateRef` flags. Every remote write is modelled as an
atomic transition on a state holding the remote `messages` collection, the
pending-read set and the presence flags. -/

/-- A remote message document, restricted to the fields the tracker touches. -/
structure RemoteMsg where
  sender : User
  delivered : Bool
  read : Bool
deriving DecidableEq, Repr

/-- The remote `messages` collection, keyed by message id. -/
abbrev Store := List (Nat × RemoteMsg)

/-- Point read of a document by id. -/
def getMsg (s : Store) (i : Nat) : Option RemoteMsg :=
  (s.find? (fun p => p.1 == i)).map (fun p => p.2)

/-- The `updateDoc(messageRef, { delivered: true })` write issued by the
listener for an observed peer message. -/
def setDelivered (s : Store) (i : Nat) : Store :=
  s.map (fun p => if p.1 == i then (p.1, { p.2 with delivered := true }) else p)

/-- One `batch.update(messageRef, { read: true, readAt })` entry of the
commit in `batchMarkMessagesAsRead`. -/
def setRead (s : Store) (i : Nat) : Store :=
  s.map (fun p => if p.1 == i then (p.1, { p.2 with read := true }) else p)

/-- The whole batched read commit: one atomic write per pending id. -/
def setReadAll (s : Store) (pend : List Nat) : Store :=
  pend.foldl setRead s

/-- Insertion into `pendingMessagesToMarkReadRef.current` (a JS `Set`). -/
def insertPending (pend : List Nat) (i : Nat) : List Nat :=
  if i ∈ pend then pend else pend ++ [i]

/-- The mutable client state: remote store plus the tracker refs
(`pendingMessagesToMarkReadRef`, `isOnlineRef`, `connectionStateRef`). The
`connected` flag is `connectionStateRef.current === 'connected'`. -/
structure St where
  store : Store
  pending : List Nat
  online : Bool
  connected : Bool
deriving DecidableEq, Repr

/-- The operations of the tracker subsystem.
`send` is `sendMessage` (creates a document with `delivered: false,
read: false`); `observe` is the listener side-effect block for one observed
message; `loadEnqueue` is the read-enqueue block of the pagination loaders
(which has no online guard); `flush` is `batchMarkMessagesAsRead` with the
commit outcome `ok`; `setOnline`/`setConnected` model the presence and
connection-state transitions. -/
inductive Op : Type
  | send (i : Nat) (u : User)
  | observe (me : User) (i : Nat)
  | loadEnqueue (me : User) (i : Nat)
  | flush (ok : Bool)
  | setOnline (b : Bool)
  | setConnected (b : Bool)
deriving DecidableEq, Repr

/-- One step. The second component logs a committed read batch: the ids
written together with the local `online` flag at commit time. -/
def step (s : St) : Op → St × Option (List Nat × Bool)
  | .send i u =>
      match getMsg s.store i with
      | some _ => (s, none)
      | none =>
          ({ s with store := s.store ++ [(i, ⟨u, false, false⟩)] }, none)
  | .observe me i =>
      match getMsg s.store i with
      | none => (s, none)
      | some m =>
          if m.sender = me then (s, none)
          else
            ({ s with
                store := if m.delivered then s.store else setDelivered s.store i,
                pending :=
                  if ¬m.read ∧ s.online ∧ s.connected then
                    insertPending s.pending i
                  else s.pending }, none)
  | .loadEnqueue me i =>
      match getMsg s.store i with
      | none => (s, none)
      | some m =>
          if m.sender ≠ me ∧ ¬m.read then
            ({ s with pending := insertPending s.pending i }, none)
          else (s, none)
  | .flush ok =>
      if s.pending.isEmpty then (s, none)
      else if s.online ∧ s.connected then
        if ok then
          ({ s with store := setReadAll s.store s.pending, pending := [] },
            some (s.pending, s.online))
        else ({ s with connected := false }, none)
      else (s, none)
  | .setOnline b => ({ s with online := b }, none)
  | .setConnected b => ({ s with connected := b }, none)

/-- Run a sequence of operations, collecting all committed read batches. -/
def run (s : St) : List Op → St × List (List Nat × Bool)
  | [] => (s, [])
  | op :: ops =>
      let r1 := step s op
      let r2 := run r1.1 ops
      (r2.1, (r1.2.toList) ++ r2.2)

/-- Apply a sequence of operations, state only. -/
def runSt (s : St) (ops : List Op) : St := (run s ops).1

/-- Whether an operation is a pagination-loader read enqueue. -/
def Op.isLoadEnqueue : Op → Bool
  | .loadEnqueue _ _ => true
  | _ => false

/-- The message invariant claimed by the spec: a read message is delivered. -/
def ReadImpliesDelivered (s : St) : Prop :=
  ∀ p ∈ s.store, p.2.read = true → p.2.delivered = true

/-- Auxiliary inductive invariant: every store entry whose id is pending is
already delivered. -/
def PendingDelivered (s : St) : Prop :=
  ∀ i ∈ s.pending, ∀ p ∈ s.store, p.1 = i → p.2.delivered = true

/-- Auxiliary inductive invariant: every pending id exists in the store. -/
def PendingExists (s : St) : Prop :=
  ∀ i ∈ s.pending, ∃ p ∈ s.store, p.1 = i

/-- The store is keyed: no two documents share an id. -/
def NodupStore (s : St) : Prop := (s.store.map Prod.fst).Nodup

/-- The inductive invariant for runs that never use the pagination-loader
read-enqueue path. -/
def Inv (s : St) : Prop :=
  NodupStore s ∧ ReadImpliesDelivered s ∧ PendingDelivered s ∧ PendingExists s

/-- The initial client state: empty store, empty pending set, online and
connected (the hook initializes `isOnlineRef.current = true`). -/
def initSt : St := ⟨[], [], true, true⟩

end Tracker

namespace Pagination

/-! Embedding of the Pagination Cursor Manager of `src/hooks/useChat.ts`:
`loadInitialMessages` (lines 612-686), `loadMoreMessages` (lines 689-768),
`loadMessagesUntil` (lines 951-1042) and `loadMessagesInBatches` (lines
1045-1129). The remote store is a list of messages in descending query order
(timestamp descending with the store's tiebreak, which is how
`orderBy('timestamp', 'desc')` delivers them). The Firestore
DocumentSnapshot cursor (`lastVisible`, consumed only by `startAfter`) is
modelled as the position in that order after which the next page starts -
the spec itself describes the cursor as an opaque position marker into the
ordered message sequence. Each remote fetch is atomic; the `ok` flag of
`loadMore` models the fetch outcome (`catch` path). -/

/-- The remote message collection in descending query order. -/
abbrev RStore := List Message

/-- The `PaginationState` of `src/types/index.ts` plus the local message
list it paginates. -/
structure PagState where
  hasMore : Bool
  isLoadingMore : Bool
  lastVisible : Option Nat
  totalLoaded : Nat
  messages : List Message
deriving DecidableEq, Repr

/-- The ids of the local message list. -/
def localIds (st : PagState) : List Nat := st.messages.map Message.id

/-- The initial `useState` pagination value. -/
def initPag : PagState := ⟨true, false, none, 0, []⟩

/-- An ordered-query read: the next `k` documents after the cursor position
(`startAfter` + `limit`), or the newest `k` when there is no cursor. -/
def queryAfter (store : RStore) (cursor : Option Nat) (k : Nat) : List Message :=
  match cursor with
  | none => store.take k
  | some c => (store.drop c).take k

/-- `loadInitialMessages`: fetch the newest 10 (the snapshot is
`store.take 10`), reverse to chronological order, set the cursor to the
oldest fetched document and `hasMore = (batch size == 10)`. -/
def loadInitial (store : RStore) (st : PagState) : PagState :=
  if (store.take 10).isEmpty then
    { st with
      messages := []
      lastVisible := none
      hasMore := false
      totalLoaded := 0 }
  else
    { st with
      messages := (store.take 10).reverse
      lastVisible := some (store.take 10).length
      hasMore := (store.take 10).length == 10
      totalLoaded := (store.take 10).length }

/-- `loadMoreMessages`: no-op when `hasMore` is false, a load is in flight or
there is no cursor; otherwise fetch the next 30 after the cursor (the
snapshot is `queryAfter store (some c) 30`), prepend them in chronological
order, advance the cursor and set `hasMore = (batch size == 30)`; on a fetch
error only the in-flight flag is reset. -/
def loadMore (store : RStore) (ok : Bool) (st : PagState) : PagState :=
  if st.hasMore = false ∨ st.isLoadingMore = true ∨ st.lastVisible = none then
    st
  else
    match st.lastVisible with
    | none => st
    | some c =>
        if ok = false then { st with isLoadingMore := false }
        else
          if (queryAfter store (some c) 30).isEmpty then
            { st with hasMore := false, isLoadingMore := false }
          else
            { st with
              messages := (queryAfter store (some c) 30).reverse ++ st.messages
              lastVisible := some (c + (queryAfter store (some c) 30).length)
              hasMore := (queryAfter store (some c) 30).length == 30
              totalLoaded := st.totalLoaded + (queryAfter store (some c) 30).length
              isLoadingMore := false }

/-- The state update of one iteration of the `loadMessagesInBatches` while
loop with cursor position `c`: prepend the reversed batch, advance the
cursor and `totalLoaded`, and set `hasMore = (batch size == 50)`. -/
def batchStep (store : RStore) (c : Nat) (st : PagState) : PagState :=
  { st with
    messages := (queryAfter store (some c) 50).reverse ++ st.messages
    lastVisible := some (c + (queryAfter store (some c) 50).length)
    hasMore := (queryAfter store (some c) 50).length == 50
    totalLoaded := st.totalLoaded + (queryAfter store (some c) 50).length }

/-- The bounded while loop of `loadMessagesInBatches`: up to `fuel` batches
of 50 after the cursor; the loop stops on an empty batch or when the target
id is found in the freshly loaded batch. -/
def batchLoop (store : RStore) (target : Nat) :
    Nat → Nat → PagState → Bool × PagState
  | 0, _, st => (false, st)
  | Nat.succ n, c, st =>
      if (queryAfter store (some c) 50).isEmpty then (false, st)
      else
        if (queryAfter store (some c) 50).reverse.any
            (fun m => m.id == target) then
          (true, batchStep store c st)
        else
          batchLoop store target n (c + (queryAfter store (some c) 50).length)
            (batchStep store c st)

/-- `loadMessagesInBatches`: seed the walk cursor (with a fresh newest-50
query that is used only to position the cursor when there is none), then run
at most 8 batch attempts. -/
def loadInBatches (store : RStore) (target : Nat) (st : PagState) :
    Bool × PagState :=
  match st.lastVisible with
  | some c => batchLoop store target 8 c st
  | none =>
      if (store.take 50).isEmpty then (false, st)
      else batchLoop store target 8 (store.take 50).length st

/-- The context query of `loadMessagesUntil`: the 150 newest documents whose
timestamp is at or before the target document's timestamp. -/
def contextFor (store : RStore) (tdoc : Message) : List Message :=
  (store.filter (fun m => m.timestamp ≤ tdoc.timestamp)).take 150

/-- The context-merge of `loadMessagesUntil` when the target was found in
the context batch: prepend the context messages whose ids are not already
local, re-sort by timestamp, bump `totalLoaded` by the number of new
messages, and set `hasMore := true` (the cursor is left untouched). -/
def mergeContext (st : PagState) (contextMessages : List Message) : PagState :=
  { st with
    messages :=
      ((contextMessages.filter
          (fun m => ¬(st.messages.any (fun e => e.id == m.id)))) ++
        st.messages).insertionSort Feed.byTime
    totalLoaded := st.totalLoaded +
      (contextMessages.filter
        (fun m => ¬(st.messages.any (fun e => e.id == m.id)))).length
    hasMore := true }

/-- `loadMessagesUntil`: immediate success when the target is already local;
otherwise a direct lookup of the target document followed by the context
query and merge, falling back to the bounded batch walk when the lookup or
the context strategy fails. -/
def loadUntil (store : RStore) (target : Nat) (st : PagState) :
    Bool × PagState :=
  if st.messages.any (fun m => m.id == target) then (true, st)
  else
    match store.find? (fun m => m.id == target) with
    | none => loadInBatches store target st
    | some tdoc =>
        if (contextFor store tdoc).isEmpty then loadInBatches store target st
        else
          if (contextFor store tdoc).reverse.any (fun m => m.id == target) then
            (true, mergeContext st (contextFor store tdoc).reverse)
          else loadInBatches store target st

/-- A pagination operation issued after the initial load. -/
inductive PagOp : Type
  | more (ok : Bool)
  | jump (target : Nat)
  | batches (target : Nat)
deriving DecidableEq, Repr

/-- Apply one pagination operation against a remote store. -/
def applyPagOp (store : RStore) (st : PagState) : PagOp → PagState
  | .more ok => loadMore store ok st
  | .jump t => (loadUntil store t st).2
  | .batches t => (loadInBatches store t st).2

/-- Run a sequence of pagination operations against a fixed remote store. -/
def runPag (store : RStore) (st : PagState) (ops : List PagOp) : PagState :=
  ops.foldl (applyPagOp store) st

/-- The cursor coherence invariant tying a pagination state to the remote
store it paginates: without a cursor the store is empty; with a cursor at
position `c`, exhaustion (`hasMore = false`) means the store has no document
past `c`, and every document before `c` is in the local list. -/
def PagInv (store : RStore) (st : PagState) : Prop :=
  match st.lastVisible with
  | none => store = []
  | some c =>
      (st.hasMore = false → store.length ≤ c) ∧
        ∀ m ∈ store.take c, m.id ∈ localIds st

end Pagination

namespace Sched

/-! Embedding of the Recurring Scheduler of the extended hook
(`checkAndSendScheduledMessages` and `calculateNextScheduledDate`). Dates
are minutes since the epoch 1970-01-01T00:00 (day 0 is a Thursday); the
weekday arithmetic mirrors `toLocaleDateString('en-US', { weekday })`, and
adding one month mirrors JS `setMonth(getMonth() + 1)`, whose day-of-month
overflow makes it equal to adding the length of the current civil month. -/

/-- Gregorian leap year. -/
def isLeapYear (y : Nat) : Bool :=
  (y % 4 == 0 && y % 100 != 0) || (y % 400 == 0)

/-- Days in a Gregorian year. -/
def daysInYear (y : Nat) : Nat := if isLeapYear y then 366 else 365

/-- Month lengths of a Gregorian year. -/
def monthLengths (y : Nat) : List Nat :=
  [31, if isLeapYear y then 29 else 28, 31, 30, 31, 30, 31, 31, 30, 31, 30, 31]

/-- Resolve a day count (days since Jan 1 of year `y`) to the civil year and
the day index inside it. -/
def yearAndDay (y d : Nat) : Nat × Nat :=
  if _h : d < daysInYear y then (y, d)
  else yearAndDay (y + 1) (d - daysInYear y)
termination_by d
decreasing_by
  have hy : 0 < daysInYear y := by unfold daysInYear; split <;> omega
  omega

/-- Resolve a day index inside a year to the month index. -/
def monthIndex : List Nat → Nat → Nat
  | [], _ => 0
  | ml :: rest, d => if d < ml then 0 else monthIndex rest (d - ml) + 1

/-- Minutes since the epoch. -/
abbrev DateM := Nat

/-- Day number of a date. -/
def dayOf (t : DateM) : Nat := t / 1440

/-- JS `setMonth(getMonth() + 1)` in day arithmetic: with day-of-month
overflow normalization this adds exactly the length of the current month. -/
def addOneMonth (t : DateM) : DateM :=
  let yd := yearAndDay 1970 (dayOf t)
  t + 1440 * ((monthLengths yd.1).getD (monthIndex (monthLengths yd.1) yd.2) 31)

/-- The weekday names of `toLocaleDateString('en-US', { weekday: 'long' })`
(the `DayOfWeek` type of `src/types/index.ts`). -/
inductive DayOfWeek : Type
  | sunday
  | monday
  | tuesday
  | wednesday
  | thursday
  | friday
  | saturday
deriving DecidableEq, Repr

/-- Weekday of a date: day 0 (1970-01-01) is a Thursday. -/
def dayOfWeek (t : DateM) : DayOfWeek :=
  match (dayOf t + 4) % 7 with
  | 0 => .sunday
  | 1 => .monday
  | 2 => .tuesday
  | 3 => .wednesday
  | 4 => .thursday
  | 5 => .friday
  | _ => .saturday

/-- The `RecurrenceType` of `src/types/index.ts`. -/
inductive RecurrenceType : Type
  | none
  | daily
  | weekly
  | monthly
  | custom
deriving DecidableEq, Repr

/-- A `scheduledMessages` document, restricted to the fields the scheduler
reads and writes. -/
structure ScheduledMessage where
  text : String
  sender : User
  scheduledDate : DateM
  recurrence : RecurrenceType
  selectedDays : Option (List DayOfWeek)
  sent : Bool
  enabled : Bool
deriving DecidableEq, Repr

/-- `calculateNextScheduledDate`: daily adds one day, weekly seven days,
monthly one JS month; every other recurrence - including `custom` - falls
into the `default` branch and returns the date unchanged. -/
def calculateNextScheduledDate (currentDate : DateM)
    (recurrence : RecurrenceType) : DateM :=
  match recurrence with
  | .daily => currentDate + 1440
  | .weekly => currentDate + 7 * 1440
  | .monthly => addOneMonth currentDate
  | _ => currentDate

/-- The bounded post-send advance loop for custom recurrences: add one day
at a time, at most 7 times, until the weekday is selected. -/
def advanceToSelectedDay (days : List DayOfWeek) : Nat → DateM → DateM
  | 0, d => d
  | Nat.succ n, d =>
      if dayOfWeek d ∈ days then d
      else advanceToSelectedDay days n (d + 1440)

/-- One scheduler evaluation of a single schedule at time `now` (the body of
the `snapshot.docs.map` callback in `checkAndSendScheduledMessages`): skip
disabled, already-sent or not-yet-due schedules; for a due custom schedule
whose target weekday is not selected, skip sending and write back
`calculateNextScheduledDate(date, 'custom')`; otherwise send the text, then
either advance the date (recurring, with the bounded custom advance loop)
and keep `sent = false`, or mark `sent = true` (one-shot). The first
component is the message text sent during this evaluation, if any. -/
def tickSchedule (now : DateM) (sm : ScheduledMessage) :
    Option String × ScheduledMessage :=
  if sm.enabled = false ∨ sm.sent = true ∨ now < sm.scheduledDate then
    (Option.none, sm)
  else
    match sm.recurrence, sm.selectedDays with
    | .custom, Option.some days =>
        if dayOfWeek sm.scheduledDate ∈ days then
          (Option.some sm.text, afterSend sm days)
        else
          (Option.none,
            { sm with scheduledDate :=
                calculateNextScheduledDate sm.scheduledDate .custom })
    | _, _ =>
        if sm.recurrence ≠ RecurrenceType.none then
          (Option.some sm.text,
            { sm with
              scheduledDate :=
                calculateNextScheduledDate sm.scheduledDate sm.recurrence
              sent := false })
        else (Option.some sm.text, { sm with sent := true })
where
  /-- The recurring-update performed after a successful custom send. -/
  afterSend (sm : ScheduledMessage) (days : List DayOfWeek) :
      ScheduledMessage :=
    { sm with
      scheduledDate :=
        advanceToSelectedDay days 7
          (calculateNextScheduledDate sm.scheduledDate .custom)
      sent := false }

end Sched

namespace Edit

/-! Embedding of `editMessage` of the extended hook (adds the prior text to
`editHistory` via `arrayUnion` when the text actually changes). -/

/-- One edit-history entry (`MessageHistory` in `src/types/index.ts`);
`editedAt` models the `new Date()` timestamp. -/
structure MessageHistory where
  text : String
  editedAt : Nat
deriving DecidableEq, Repr

/-- The message-document fields touched by `editMessage`. -/
structure MsgDoc where
  text : String
  edited : Bool
  editHistory : List MessageHistory
deriving DecidableEq, Repr

/-- Firestore `arrayUnion`: append the element unless an equal element is
already present. -/
def arrayUnion (l : List MessageHistory) (e : MessageHistory) :
    List MessageHistory :=
  if e ∈ l then l else l ++ [e]

/-- `editMessage`: read the current text; when the new text differs, write
the new text, the edited flag, and `arrayUnion` the prior text with the edit
time into the history; otherwise leave the document unchanged. -/
def editMessage (d : MsgDoc) (newText : String) (now : Nat) : MsgDoc :=
  if d.text ≠ newText then
    { text := newText
      edited := true
      editHistory := arrayUnion d.editHistory ⟨d.text, now⟩ }
  else d

end Edit

end ChatApp

/-! Helper lemmas and theorems. -/

namespace ChatApp.Feed

theorem containsId_eq_true_iff {l : List Message} {i : Nat} :
    containsId l i = true ↔ i ∈ ids l := by
  constructor
  · intro h
    rcases List.any_eq_true.mp h with ⟨m, hm, hid⟩
    have hmi : m.id = i := by simpa using hid
    exact List.mem_map.mpr ⟨m, hm, hmi⟩
  · intro h
    rcases List.mem_map.mp h with ⟨m, hm, hmi⟩
    exact List.any_eq_true.mpr ⟨m, hm, by simp [hmi]⟩

theorem ids_replaceById (m : Message) (l : List Message) :
    ids (replaceById m l) = ids l := by
  induction l with
  | nil => rfl
  | cons x xs ih =>
      by_cases hx : x.id = m.id
      · simp [replaceById, hx, ids]
      · simp [replaceById, hx, ids] at ih ⊢
        exact ih

theorem removeById_sublist (i : Nat) (l : List Message) :
    List.Sublist (removeById i l) l := by
  induction l with
  | nil => simp only [removeById, List.Sublist.refl]
  | cons x xs ih =>
      by_cases hx : x.id = i
      · simp only [removeById, hx, if_true]
        exact List.sublist_cons_self x xs
      · simpa [removeById, hx] using ih.cons₂ x

theorem ids_append_singleton (l : List Message) (m : Message) :
    ids (l ++ [m]) = ids l ++ [m.id] := by
  simp [ids]

theorem nodup_push {l : List Message} {m : Message}
    (hl : (ids l).Nodup) (hm : m.id ∉ ids l) : (ids (l ++ [m])).Nodup := by
  rw [ids_append_singleton]
  exact hl.append (List.nodup_singleton m.id)
    (by simpa [List.disjoint_singleton] using hm)

theorem nodup_applyChange {l : List Message} {h : Bool} {c : DocChange}
    (hl : (ids l).Nodup) : (ids (applyChange (l, h) c).1).Nodup := by
  cases c with
  | mk t m =>
      cases t with
      | added =>
          by_cases hc : containsId l m.id
          · simpa [applyChange, hc] using hl
          · have hm : m.id ∉ ids l := fun hmem =>
              hc (containsId_eq_true_iff.mpr hmem)
            simpa [applyChange, hc] using nodup_push hl hm
      | modified =>
          by_cases hc : containsId l m.id
          · simpa [applyChange, hc, ids_replaceById] using hl
          · have hm : m.id ∉ ids l := fun hmem =>
              hc (containsId_eq_true_iff.mpr hmem)
            simpa [applyChange, hc] using nodup_push hl hm
      | removed =>
          by_cases hc : containsId l m.id
          · have hs : List.Sublist (ids (removeById m.id l)) (ids l) :=
              (removeById_sublist m.id l).map Message.id
            simpa [applyChange, hc] using hl.sublist hs
          · simpa [applyChange, hc] using hl

theorem nodup_foldl_applyChange (cs : List DocChange) :
    ∀ l h, (ids l).Nodup → (ids (cs.foldl applyChange (l, h)).1).Nodup := by
  induction cs with
  | nil => intro l h hl; simpa using hl
  | cons c cs ih =>
      intro l h hl
      have hstep := nodup_applyChange (l := l) (h := h) (c := c) hl
      have hfold : (c :: cs).foldl applyChange (l, h) =
          cs.foldl applyChange (applyChange (l, h) c) := by
        simp [List.foldl_cons]
      rw [hfold]
      cases hac : applyChange (l, h) c with
      | mk l2 h2 =>
          rw [hac] at hstep
          exact ih l2 h2 hstep

theorem wf_processChanges {prev : List Message} (cs : List DocChange)
    (hwf : WF prev) : WF (processChanges prev cs) := by
  unfold processChanges
  by_cases hflag : (cs.foldl applyChange (prev, false)).2 = true
  · have hnd : (ids (cs.foldl applyChange (prev, false)).1).Nodup :=
      nodup_foldl_applyChange cs prev false hwf.2
    have hperm : List.Perm
        ((cs.foldl applyChange (prev, false)).1.insertionSort byTime)
        (cs.foldl applyChange (prev, false)).1 :=
      List.perm_insertionSort byTime _
    have hnodup :
        (ids ((cs.foldl applyChange (prev, false)).1.insertionSort byTime)).Nodup :=
      ((hperm.map Message.id).nodup_iff).mpr hnd
    have hsorted :
        ((cs.foldl applyChange (prev, false)).1.insertionSort byTime).Sorted byTime :=
      List.sorted_insertionSort byTime _
    rw [if_pos hflag]
    exact ⟨hsorted, hnodup⟩
  · rw [if_neg hflag]
    exact hwf

theorem wf_runFeed (snaps : List (List DocChange)) :
    ∀ prev, WF prev → WF (runFeed prev snaps) := by
  induction snaps with
  | nil => intro prev h; simpa [runFeed] using h
  | cons s ss ih =>
      intro prev h
      have hstep := wf_processChanges s h
      simpa [runFeed] using ih (processChanges prev s) hstep

theorem processChanges_added_present {prev : List Message} {m : Message}
    (hmem : m.id ∈ ids prev) :
    processChanges prev [⟨ChangeType.added, m⟩] = prev := by
  have hc : containsId prev m.id = true := containsId_eq_true_iff.mpr hmem
  simp [processChanges, applyChange, hc]

end ChatApp.Feed

namespace ChatApp.Tracker

theorem getMsg_eq_none_iff {s : Store} {i : Nat} :
    getMsg s i = none ↔ ∀ p ∈ s, p.1 ≠ i := by
  unfold getMsg
  rw [Option.map_eq_none']
  rw [List.find?_eq_none]
  constructor
  · intro h p hp
    have := h p hp
    simpa using this
  · intro h p hp
    simpa using h p hp

theorem getMsg_mem {s : Store} {i : Nat} {m : RemoteMsg}
    (h : getMsg s i = some m) : (i, m) ∈ s := by
  unfold getMsg at h
  rcases Option.map_eq_some'.mp h with ⟨p, hfind, hsnd⟩
  have hmem := List.mem_of_find?_eq_some hfind
  have hpred := List.find?_some hfind
  have h1 : p.1 = i := by simpa using hpred
  have : p = (i, m) := by
    cases p
    simp_all
  rwa [this] at hmem

theorem mem_insertPending {pend : List Nat} {i j : Nat}
    (h : j ∈ insertPending pend i) : j ∈ pend ∨ j = i := by
  unfold insertPending at h
  by_cases hi : i ∈ pend
  · rw [if_pos hi] at h; exact Or.inl h
  · rw [if_neg hi] at h
    rcases List.mem_append.mp h with h | h
    · exact Or.inl h
    · exact Or.inr (by simpa using h)

theorem insertPending_ne_nil {pend : List Nat} {i : Nat}
    (h : insertPending pend i = []) : pend = [] := by
  unfold insertPending at h
  by_cases hi : i ∈ pend
  · rwa [if_pos hi] at h
  · rw [if_neg hi] at h
    exact absurd h (by simp)

theorem map_fst_setDelivered (s : Store) (i : Nat) :
    (setDelivered s i).map Prod.fst = s.map Prod.fst := by
  unfold setDelivered
  rw [List.map_map]
  exact List.map_congr_left fun p _ => by
    simp only [Function.comp_apply]
    split <;> rfl

theorem map_fst_setRead (s : Store) (i : Nat) :
    (setRead s i).map Prod.fst = s.map Prod.fst := by
  unfold setRead
  rw [List.map_map]
  exact List.map_congr_left fun p _ => by
    simp only [Function.comp_apply]
    split <;> rfl

theorem map_fst_setReadAll (pend : List Nat) :
    ∀ s : Store, (setReadAll s pend).map Prod.fst = s.map Prod.fst := by
  induction pend with
  | nil => intro s; rfl
  | cons i is ih =>
      intro s
      have h1 : setReadAll s (i :: is) = setReadAll (setRead s i) is := rfl
      rw [h1, ih, map_fst_setRead]

theorem mem_setDelivered {s : Store} {i : Nat} {q : Nat × RemoteMsg}
    (h : q ∈ setDelivered s i) :
    ∃ p ∈ s, q = if p.1 == i then (p.1, { p.2 with delivered := true }) else p := by
  rcases List.mem_map.mp h with ⟨p, hp, he⟩
  exact ⟨p, hp, he.symm⟩

theorem mem_setRead {s : Store} {i : Nat} {q : Nat × RemoteMsg}
    (h : q ∈ setRead s i) :
    ∃ p ∈ s, q = if p.1 == i then (p.1, { p.2 with read := true }) else p := by
  rcases List.mem_map.mp h with ⟨p, hp, he⟩
  exact ⟨p, hp, he.symm⟩

theorem mem_setReadAll {pend : List Nat} :
    ∀ {s : Store} {q : Nat × RemoteMsg}, q ∈ setReadAll s pend →
      ∃ p ∈ s, q.1 = p.1 ∧ q.2.delivered = p.2.delivered ∧
        (q.2.read = p.2.read ∨ q.1 ∈ pend) := by
  induction pend with
  | nil =>
      intro s q h
      exact ⟨q, h, rfl, rfl, Or.inl rfl⟩
  | cons i is ih =>
      intro s q h
      have h1 : setReadAll s (i :: is) = setReadAll (setRead s i) is := rfl
      rw [h1] at h
      rcases ih h with ⟨r, hr, e1, e2, e3⟩
      rcases mem_setRead hr with ⟨p, hp, he⟩
      by_cases hpi : p.1 == i
      · rw [if_pos hpi] at he
        have hp1 : p.1 = i := by simpa using hpi
        refine ⟨p, hp, ?_, ?_, ?_⟩
        · rw [e1, he]
        · rw [e2, he]
        · right
          rw [e1, he]
          simp [hp1]
      · rw [if_neg hpi] at he
        rw [he] at e1 e2 e3
        refine ⟨p, hp, e1, e2, ?_⟩
        rcases e3 with e3 | e3
        · exact Or.inl e3
        · exact Or.inr (List.mem_cons_of_mem i e3)

theorem eq_of_mem_nodupStore {s : Store}
    (hn : (s.map Prod.fst).Nodup) {p q : Nat × RemoteMsg}
    (hp : p ∈ s) (hq : q ∈ s) (h : p.1 = q.1) : p = q := by
  induction s with
  | nil => cases hp
  | cons x xs ih =>
      have hn2 : (x.1 :: xs.map Prod.fst).Nodup := by simpa using hn
      rcases List.nodup_cons.mp hn2 with ⟨hx, hxs⟩
      rcases List.mem_cons.mp hp with hp1 | hp1 <;>
        rcases List.mem_cons.mp hq with hq1 | hq1
      · rw [hp1, hq1]
      · exfalso
        apply hx
        rw [hp1] at h
        rw [h]
        exact List.mem_map_of_mem Prod.fst hq1
      · exfalso
        apply hx
        rw [hq1] at h
        rw [← h]
        exact List.mem_map_of_mem Prod.fst hp1
      · exact ih hxs hp1 hq1

theorem exists_fst_setDelivered {s : Store} {q : Nat × RemoteMsg} (i : Nat)
    (hq : q ∈ s) : ∃ p ∈ setDelivered s i, p.1 = q.1 := by
  refine ⟨if q.1 == i then (q.1, { q.2 with delivered := true }) else q,
    List.mem_map_of_mem _ hq, ?_⟩
  split <;> rfl

theorem inv_step {s : St} {op : Op} (hop : op.isLoadEnqueue = false)
    (h : Inv s) : Inv (step s op).1 := by
  obtain ⟨hnd, hrid, hpd, hpe⟩ := h
  cases op with
  | loadEnqueue me i => simp [Op.isLoadEnqueue] at hop
  | setOnline b => exact ⟨hnd, hrid, hpd, hpe⟩
  | setConnected b => exact ⟨hnd, hrid, hpd, hpe⟩
  | send i u =>
      cases hg : getMsg s.store i with
      | some m =>
          simp only [step, hg]
          exact ⟨hnd, hrid, hpd, hpe⟩
      | none =>
          have hfresh : ∀ p ∈ s.store, p.1 ≠ i := getMsg_eq_none_iff.mp hg
          simp only [step, hg]
          refine ⟨?_, ?_, ?_, ?_⟩
          · show ((s.store ++ [(i, (⟨u, false, false⟩ : RemoteMsg))]).map
              Prod.fst).Nodup
            rw [List.map_append]
            refine hnd.append (List.nodup_singleton i) ?_
            intro a ha hb
            rcases List.mem_map.mp ha with ⟨p, hp, he⟩
            have hai : a = i := by simpa using hb
            exact hfresh p hp (he.trans hai)
          · intro p hp hr
            rcases List.mem_append.mp hp with hp | hp
            · exact hrid p hp hr
            · have hpv : p = (i, (⟨u, false, false⟩ : RemoteMsg)) := by
                simpa using hp
              rw [hpv] at hr
              cases hr
          · intro j hj p hp hpj
            rcases List.mem_append.mp hp with hp | hp
            · exact hpd j hj p hp hpj
            · rcases hpe j hj with ⟨q, hq, hqj⟩
              have hpv : p = (i, (⟨u, false, false⟩ : RemoteMsg)) := by
                simpa using hp
              exfalso
              apply hfresh q hq
              rw [hqj, ← hpj, hpv]
          · intro j hj
            rcases hpe j hj with ⟨q, hq, hqj⟩
            exact ⟨q, List.mem_append.mpr (Or.inl hq), hqj⟩
  | observe me i =>
      cases hg : getMsg s.store i with
      | none =>
          simp only [step, hg]
          exact ⟨hnd, hrid, hpd, hpe⟩
      | some m =>
          by_cases hme : m.sender = me
          · simp only [step, hg, if_pos hme]
            exact ⟨hnd, hrid, hpd, hpe⟩
          · simp only [step, hg, if_neg hme]
            refine ⟨?_, ?_, ?_, ?_⟩
            · show ((if m.delivered then s.store else
                  setDelivered s.store i).map Prod.fst).Nodup
              by_cases hd : m.delivered
              · simpa [hd] using hnd
              · rw [if_neg hd, map_fst_setDelivered]
                exact hnd
            · intro p' hp' hr'
              by_cases hd : m.delivered
              · rw [if_pos hd] at hp'
                exact hrid p' hp' hr'
              · rw [if_neg hd] at hp'
                rcases mem_setDelivered hp' with ⟨p, hp, he⟩
                by_cases hpi : p.1 == i
                · rw [if_pos hpi] at he
                  rw [he]
                · rw [if_neg hpi] at he
                  rw [he] at hr' ⊢
                  exact hrid p hp hr'
            · intro j hj p' hp' hpj
              have hjcase : j ∈ s.pending ∨ j = i := by
                by_cases hc : ¬m.read ∧ s.online ∧ s.connected
                · rw [if_pos hc] at hj
                  exact mem_insertPending hj
                · rw [if_neg hc] at hj
                  exact Or.inl hj
              rcases hjcase with hj2 | hj2
              · by_cases hd : m.delivered
                · rw [if_pos hd] at hp'
                  exact hpd j hj2 p' hp' hpj
                · rw [if_neg hd] at hp'
                  rcases mem_setDelivered hp' with ⟨p, hp, he⟩
                  by_cases hpi : p.1 == i
                  · rw [if_pos hpi] at he
                    rw [he]
                  · rw [if_neg hpi] at he
                    rw [he] at hpj ⊢
                    exact hpd j hj2 p hp hpj
              · subst hj2
                by_cases hd : m.delivered
                · rw [if_pos hd] at hp'
                  have hm : (j, m) ∈ s.store := getMsg_mem hg
                  have hpeq : p' = (j, m) :=
                    eq_of_mem_nodupStore hnd hp' hm hpj
                  rw [hpeq]
                  simpa using hd
                · rw [if_neg hd] at hp'
                  rcases mem_setDelivered hp' with ⟨p, hp, he⟩
                  by_cases hpi : p.1 == j
                  · rw [if_pos hpi] at he
                    rw [he]
                  · rw [if_neg hpi] at he
                    rw [he] at hpj
                    exact absurd (by simp [hpj]) hpi
            · intro j hj
              have hjcase : j ∈ s.pending ∨ j = i := by
                by_cases hc : ¬m.read ∧ s.online ∧ s.connected
                · rw [if_pos hc] at hj
                  exact mem_insertPending hj
                · rw [if_neg hc] at hj
                  exact Or.inl hj
              by_cases hd : m.delivered
              · rw [if_pos hd]
                rcases hjcase with hj2 | hj2
                · exact hpe j hj2
                · subst hj2
                  exact ⟨(j, m), getMsg_mem hg, rfl⟩
              · rw [if_neg hd]
                rcases hjcase with hj2 | hj2
                · rcases hpe j hj2 with ⟨q, hq, hqj⟩
                  rcases exists_fst_setDelivered i hq with ⟨p, hp, hpq⟩
                  exact ⟨p, hp, hpq.trans hqj⟩
                · subst hj2
                  rcases exists_fst_setDelivered j (getMsg_mem hg) with
                    ⟨p, hp, hpq⟩
                  exact ⟨p, hp, hpq⟩
  | flush ok =>
      by_cases hemp : s.pending.isEmpty
      · simp only [step, if_pos hemp]
        exact ⟨hnd, hrid, hpd, hpe⟩
      · by_cases hoc : s.online ∧ s.connected
        · cases ok with
          | true =>
              simp only [step, if_neg hemp, if_pos hoc]
              refine ⟨?_, ?_, ?_, ?_⟩
              · show ((setReadAll s.store s.pending).map Prod.fst).Nodup
                rw [map_fst_setReadAll]
                exact hnd
              · intro p' hp' hr'
                rcases mem_setReadAll hp' with ⟨p, hp, e1, e2, e3⟩
                rcases e3 with e3 | e3
                · rw [e2]
                  exact hrid p hp (e3 ▸ hr')
                · rw [e2]
                  exact hpd p'.1 e3 p hp e1.symm
              · intro j hj
                cases hj
              · intro j hj
                cases hj
          | false =>
              simp only [step, if_neg hemp, if_pos hoc]
              exact ⟨hnd, hrid, hpd, hpe⟩
        · simp only [step, if_neg hemp, if_neg hoc]
          exact ⟨hnd, hrid, hpd, hpe⟩

theorem inv_runSt (ops : List Op)
    (hops : ∀ op ∈ ops, op.isLoadEnqueue = false) :
    ∀ s : St, Inv s → Inv (runSt s ops) := by
  induction ops with
  | nil => intro s h; exact h
  | cons op ops ih =>
      intro s h
      have hstep : Inv (step s op).1 :=
        inv_step (hops op (List.mem_cons_self op ops)) h
      have hops2 : ∀ o ∈ ops, o.isLoadEnqueue = false := fun o ho =>
        hops o (List.mem_cons_of_mem op ho)
      have hrest := ih hops2 (step s op).1 hstep
      simpa [runSt, run] using hrest

theorem step_commit_online {s : St} {op : Op} {b : List Nat × Bool}
    (h : (step s op).2 = some b) : b.2 = true ∧ s.online = true := by
  cases op with
  | send i u =>
      cases hg : getMsg s.store i <;> simp [step, hg] at h
  | observe me i =>
      cases hg : getMsg s.store i with
      | none => simp [step, hg] at h
      | some m =>
          simp only [step, hg] at h
          split at h <;> simp at h
  | loadEnqueue me i =>
      cases hg : getMsg s.store i with
      | none => simp [step, hg] at h
      | some m =>
          simp only [step, hg] at h
          split at h <;> simp at h
  | flush ok =>
      simp only [step] at h
      split at h
      · exact absurd h (by simp)
      · split at h
        · next hoc =>
            split at h
            · have hb : b = (s.pending, s.online) := by simpa using h.symm
              rw [hb]
              exact ⟨hoc.1, hoc.1⟩
            · exact absurd h (by simp)
        · exact absurd h (by simp)
  | setOnline b2 => simp [step] at h
  | setConnected b2 => simp [step] at h

theorem run_commit_online (ops : List Op) :
    ∀ s : St, ∀ b ∈ (run s ops).2, b.2 = true := by
  induction ops with
  | nil => intro s b hb; cases hb
  | cons op ops ih =>
      intro s b hb
      have hsplit : (run s (op :: ops)).2 =
          (step s op).2.toList ++ (run (step s op).1 ops).2 := rfl
      rw [hsplit] at hb
      rcases List.mem_append.mp hb with hb | hb
      · cases hc : (step s op).2 with
        | none => rw [hc] at hb; cases hb
        | some c =>
            rw [hc] at hb
            have hbc : b = c := by simpa using hb
            rw [hbc]
            exact (step_commit_online hc).1
      · exact ih (step s op).1 b hb

theorem step_flush_offline {s : St} (h : s.online = false) (ok : Bool) :
    step s (Op.flush ok) = (s, none) := by
  simp only [step]
  split
  · rfl
  · rw [if_neg (by simp [h])]

theorem inv_initSt : Inv initSt :=
  ⟨List.nodup_nil,
   fun p hp => absurd hp (List.not_mem_nil p),
   fun i hi => absurd hi (List.not_mem_nil i),
   fun i hi => absurd hi (List.not_mem_nil i)⟩

end ChatApp.Tracker

namespace ChatApp.Pagination

theorem loadMore_totalLoaded (store : RStore) (ok : Bool) (st : PagState) :
    st.totalLoaded ≤ (loadMore store ok st).totalLoaded := by
  unfold loadMore
  split
  · exact Nat.le_refl _
  · split
    · exact Nat.le_refl _
    · split
      · exact Nat.le_refl _
      · split
        · exact Nat.le_refl _
        · exact Nat.le_add_right _ _

theorem queryAfter_subset {store : RStore} {cursor : Option Nat} {k : Nat}
    {m : Message} (hm : m ∈ queryAfter store cursor k) : m ∈ store := by
  cases cursor with
  | none => exact List.take_subset _ _ hm
  | some c => exact List.drop_subset _ _ (List.take_subset _ _ hm)

theorem batchLoop_not_found {store : RStore} {target : Nat}
    (hmem : target ∉ Feed.ids store) :
    ∀ (fuel c : Nat) (st : PagState),
      (batchLoop store target fuel c st).1 = false := by
  intro fuel
  induction fuel with
  | zero => intro c st; rfl
  | succ n ih =>
      intro c st
      unfold batchLoop
      split
      · rfl
      · have hfound : ((queryAfter store (some c) 50).reverse.any
            (fun m => m.id == target)) = false := by
          rw [List.any_eq_false]
          intro m hm
          have hms : m ∈ store := queryAfter_subset (List.mem_reverse.mp hm)
          have hne : m.id ≠ target := fun he =>
            hmem (he ▸ List.mem_map_of_mem Message.id hms)
          simpa using hne
        rw [if_neg (by simp [hfound])]
        exact ih _ _

theorem loadInBatches_not_found {store : RStore} {target : Nat}
    (hmem : target ∉ Feed.ids store) (st : PagState) :
    (loadInBatches store target st).1 = false := by
  unfold loadInBatches
  split
  · exact batchLoop_not_found hmem 8 _ _
  · split
    · rfl
    · exact batchLoop_not_found hmem 8 _ _

theorem find_and_context {store : RStore} {target : Nat}
    (hsort : store.Pairwise (fun a b => b.timestamp < a.timestamp))
    (hmem : target ∈ Feed.ids store) :
    ∃ tdoc, store.find? (fun m => m.id == target) = some tdoc ∧
      (contextFor store tdoc).any (fun m => m.id == target) = true := by
  induction store with
  | nil => simp [Feed.ids] at hmem
  | cons x xs ih =>
      by_cases hx : x.id = target
      · refine ⟨x, ?_, ?_⟩
        · rw [List.find?_cons_of_pos _ (by simp [hx])]
        · unfold contextFor
          rw [List.filter_cons_of_pos (by simp)]
          rw [show (150 : Nat) = 149 + 1 from rfl, List.take_succ_cons]
          simp [hx]
      · have hmem2 : target ∈ Feed.ids xs := by
          rcases List.mem_map.mp hmem with ⟨m, hmmem, hmid⟩
          rcases List.mem_cons.mp hmmem with hmx | hmx
          · exact absurd (hmx ▸ hmid) hx
          · exact hmid ▸ List.mem_map_of_mem Message.id hmx
        rcases ih (List.pairwise_cons.mp hsort).2 hmem2 with ⟨tdoc, hfind, hany⟩
        refine ⟨tdoc, ?_, ?_⟩
        · rw [List.find?_cons_of_neg _ (by simp [hx])]
          exact hfind
        · have htdoc : tdoc ∈ xs := List.mem_of_find?_eq_some hfind
          have hgt : tdoc.timestamp < x.timestamp :=
            (List.pairwise_cons.mp hsort).1 tdoc htdoc
          unfold contextFor at hany ⊢
          rw [List.filter_cons_of_neg (by simp; omega)]
          exact hany

theorem loadUntil_not_found {store : RStore} {target : Nat} {st : PagState}
    (hmem : target ∉ Feed.ids store) (hlocal : target ∉ localIds st) :
    (loadUntil store target st).1 = false := by
  unfold loadUntil
  have hany : st.messages.any (fun m => m.id == target) = false := by
    rw [List.any_eq_false]
    intro m hm
    have hne : m.id ≠ target := fun he =>
      hlocal (he ▸ List.mem_map_of_mem Message.id hm)
    simpa using hne
  rw [if_neg (by simp [hany])]
  have hfind : store.find? (fun m => m.id == target) = none := by
    rw [List.find?_eq_none]
    intro m hm
    have hne : m.id ≠ target := fun he =>
      hmem (he ▸ List.mem_map_of_mem Message.id hm)
    simpa using hne
  rw [hfind]
  exact loadInBatches_not_found hmem st

theorem loadUntil_found {store : RStore} {target : Nat} (st : PagState)
    (hsort : store.Pairwise (fun a b => b.timestamp < a.timestamp))
    (hmem : target ∈ Feed.ids store) :
    (loadUntil store target st).1 = true := by
  unfold loadUntil
  by_cases hany : st.messages.any (fun m => m.id == target) = true
  · rw [if_pos hany]
  · rw [if_neg hany]
    rcases find_and_context hsort hmem with ⟨tdoc, hfind, hctx⟩
    rw [hfind]
    dsimp only
    have hne : ¬((contextFor store tdoc).isEmpty = true) := by
      cases hc : contextFor store tdoc with
      | nil => rw [hc] at hctx; simp at hctx
      | cons a as => simp [hc]
    rw [if_neg hne]
    have hrev : ((contextFor store tdoc).reverse.any
        (fun m => m.id == target)) = true := by
      rw [List.any_eq_true] at hctx ⊢
      rcases hctx with ⟨m, hm, hp⟩
      exact ⟨m, List.mem_reverse.mpr hm, hp⟩
    rw [if_pos hrev]

theorem loadMore_noop {store : RStore} {ok : Bool} {st : PagState}
    (h : st.hasMore = false ∨ st.isLoadingMore = true ∨
      st.lastVisible = none) : loadMore store ok st = st := by
  unfold loadMore
  rw [if_pos h]

theorem take_length_take (l : List Message) (k : Nat) :
    l.take ((l.take k).length) = l.take k := by
  rw [List.length_take]
  rcases Nat.le_total k l.length with h | h
  · rw [Nat.min_eq_left h]
  · rw [Nat.min_eq_right h, List.take_length, List.take_of_length_le h]

theorem queryAfter_length_le (store : RStore) (c k : Nat) :
    store.length ≤ c + (queryAfter store (some c) k).length ∨
      (queryAfter store (some c) k).length = k := by
  unfold queryAfter
  rw [List.length_take, List.length_drop]
  rcases Nat.le_total k (store.length - c) with h | h
  · exact Or.inr (Nat.min_eq_left h)
  · left
    rw [Nat.min_eq_right h]
    omega

theorem take_split_snapshot (store : RStore) (c k : Nat) :
    store.take (c + (queryAfter store (some c) k).length) =
      store.take c ++ queryAfter store (some c) k := by
  rw [List.take_add]
  congr 1
  exact take_length_take (store.drop c) k

theorem pagInv_none_iff {store : RStore} {st : PagState}
    (hlv : st.lastVisible = none) : PagInv store st ↔ store = [] := by
  unfold PagInv
  rw [hlv]

theorem pagInv_some_iff {store : RStore} {st : PagState} {c : Nat}
    (hlv : st.lastVisible = some c) :
    PagInv store st ↔ ((st.hasMore = false → store.length ≤ c) ∧
      ∀ m ∈ store.take c, m.id ∈ localIds st) := by
  unfold PagInv
  rw [hlv]

theorem pagInv_loadInitial (store : RStore) (st : PagState) :
    PagInv store (loadInitial store st) := by
  unfold loadInitial
  by_cases hemp : (store.take 10).isEmpty = true
  · rw [if_pos hemp]
    have h1 : store.take 10 = [] := by
      simpa [List.isEmpty_iff] using hemp
    have hstore : store = [] := by
      rcases List.take_eq_nil_iff.mp h1 with h | h
      · exact absurd h (by decide)
      · exact h
    exact (pagInv_none_iff rfl).mpr hstore
  · rw [if_neg hemp]
    refine (pagInv_some_iff rfl).mpr ⟨?_, ?_⟩
    · intro hfalse
      have hne : (store.take 10).length ≠ 10 := by simpa using hfalse
      rw [List.length_take] at hne ⊢
      omega
    · intro m hm
      rw [take_length_take] at hm
      show m.id ∈ ((store.take 10).reverse).map Message.id
      exact List.mem_map_of_mem _ (List.mem_reverse.mpr hm)

theorem pagInv_advance {store : RStore} {c : Nat} (k : Nat) {st : PagState}
    (heq : st.lastVisible = some c) (h : PagInv store st) {s2 : PagState}
    (h2lv : s2.lastVisible = some (c + (queryAfter store (some c) k).length))
    (h2hm : s2.hasMore = ((queryAfter store (some c) k).length == k))
    (h2msg : ∀ i ∈ ((queryAfter store (some c) k).reverse ++
        st.messages).map Message.id, i ∈ localIds s2) :
    PagInv store s2 := by
  refine (pagInv_some_iff h2lv).mpr ⟨?_, ?_⟩
  · intro hf
    have hne : (queryAfter store (some c) k).length ≠ k := by
      have := h2hm ▸ hf
      simpa using this
    rcases queryAfter_length_le store c k with hle | hk
    · exact hle
    · exact absurd hk hne
  · intro m hm
    rw [take_split_snapshot] at hm
    have h1 := (pagInv_some_iff heq).mp h
    rcases List.mem_append.mp hm with hm | hm
    · have hmem := h1.2 m hm
      refine h2msg _ ?_
      rw [List.map_append]
      exact List.mem_append.mpr (Or.inr hmem)
    · refine h2msg _ ?_
      rw [List.map_append]
      exact List.mem_append.mpr
        (Or.inl (List.mem_map_of_mem _ (List.mem_reverse.mpr hm)))

theorem pagInv_update_isLoadingMore {store : RStore} {st : PagState}
    (h : PagInv store st) :
    PagInv store { st with isLoadingMore := false } := by
  cases st with
  | mk hm ilm lv tl msgs =>
      cases lv with
      | none => exact (pagInv_none_iff rfl).mpr ((pagInv_none_iff rfl).mp h)
      | some c =>
          exact (pagInv_some_iff rfl).mpr ((pagInv_some_iff rfl).mp h)

theorem pagInv_exhaust {store : RStore} {st : PagState} {c : Nat}
    (heq : st.lastVisible = some c) (hlen : store.length ≤ c)
    (h : PagInv store st) :
    PagInv store { st with hasMore := false, isLoadingMore := false } := by
  cases st with
  | mk hm ilm lv tl msgs =>
      cases heq
      refine (pagInv_some_iff rfl).mpr ⟨fun _ => hlen, ?_⟩
      intro m hm2
      exact ((pagInv_some_iff rfl).mp h).2 m hm2

theorem pagInv_loadMore (store : RStore) (ok : Bool) {st : PagState}
    (h : PagInv store st) : PagInv store (loadMore store ok st) := by
  unfold loadMore
  split
  · exact h
  · split
    · exact h
    · next c heq =>
        split
        · exact pagInv_update_isLoadingMore h
        · split
          · next hempty =>
              have hq : queryAfter store (some c) 30 = [] := by
                simpa [List.isEmpty_iff] using hempty
              have hlen : store.length ≤ c := by
                unfold queryAfter at hq
                rcases List.take_eq_nil_iff.mp hq with h30 | hdrop
                · exact absurd h30 (by decide)
                · exact List.drop_eq_nil_iff.mp hdrop
              exact pagInv_exhaust heq hlen h
          · exact pagInv_advance 30 heq h rfl rfl (fun _ hi => hi)

theorem pagInv_batchStep {store : RStore} {c : Nat} {st : PagState}
    (heq : st.lastVisible = some c) (h : PagInv store st) :
    PagInv store (batchStep store c st) :=
  pagInv_advance 50 heq h rfl rfl (fun _ hi => hi)

theorem pagInv_batchLoop {store : RStore} {target : Nat} :
    ∀ (fuel : Nat) {c : Nat} {st : PagState}, st.lastVisible = some c →
      PagInv store st → PagInv store (batchLoop store target fuel c st).2 := by
  intro fuel
  induction fuel with
  | zero => intro c st _ h; exact h
  | succ n ih =>
      intro c st heq h
      unfold batchLoop
      split
      · exact h
      · split
        · exact pagInv_batchStep heq h
        · exact ih rfl (pagInv_batchStep heq h)

theorem pagInv_loadInBatches {store : RStore} {target : Nat} {st : PagState}
    (h : PagInv store st) : PagInv store (loadInBatches store target st).2 := by
  unfold loadInBatches
  split
  · next c heq => exact pagInv_batchLoop 8 heq h
  · next heq =>
      have hstore := (pagInv_none_iff heq).mp h
      rw [if_pos (by simp [hstore])]
      exact h

theorem pagInv_mergeContext {store : RStore} {st : PagState}
    (ctx : List Message) (h : PagInv store st) :
    PagInv store (mergeContext st ctx) := by
  cases hc : st.lastVisible with
  | none =>
      exact (pagInv_none_iff (show (mergeContext st ctx).lastVisible = none
        from hc)).mpr ((pagInv_none_iff hc).mp h)
  | some c =>
      have h1 := (pagInv_some_iff hc).mp h
      refine (pagInv_some_iff (show (mergeContext st ctx).lastVisible = some c
        from hc)).mpr ⟨?_, ?_⟩
      · intro hf
        exact absurd hf (by simp [mergeContext])
      · intro m hm
        have hmem := h1.2 m hm
        show m.id ∈ (((ctx.filter
            (fun m => ¬(st.messages.any (fun e => e.id == m.id)))) ++
          st.messages).insertionSort Feed.byTime).map Message.id
        have hperm := List.perm_insertionSort Feed.byTime
          ((ctx.filter (fun m => ¬(st.messages.any (fun e => e.id == m.id)))) ++
            st.messages)
        refine (hperm.map Message.id).mem_iff.mpr ?_
        rw [List.map_append]
        exact List.mem_append.mpr (Or.inr hmem)

theorem pagInv_loadUntil {store : RStore} {target : Nat} {st : PagState}
    (h : PagInv store st) : PagInv store (loadUntil store target st).2 := by
  unfold loadUntil
  split
  · exact h
  · split
    · exact pagInv_loadInBatches h
    · split
      · exact pagInv_loadInBatches h
      · split
        · exact pagInv_mergeContext _ h
        · exact pagInv_loadInBatches h

theorem batchLoop_stuck {store : RStore} {target c : Nat}
    (hc : store.length ≤ c) :
    ∀ (fuel : Nat) (st : PagState),
      batchLoop store target fuel c st = (false, st) := by
  intro fuel st
  cases fuel with
  | zero => rfl
  | succ n =>
      have hq : queryAfter store (some c) 50 = [] := by
        unfold queryAfter
        dsimp only
        rw [List.drop_eq_nil_iff.mpr hc]
        rfl
      unfold batchLoop
      rw [if_pos (by simp [hq])]

theorem loadInBatches_exhausted {store : RStore} {target : Nat}
    {st : PagState} (h : PagInv store st) (hf : st.hasMore = false) :
    (loadInBatches store target st).2 = st := by
  unfold loadInBatches
  split
  · next c heq =>
      have h1 := (pagInv_some_iff heq).mp h
      rw [batchLoop_stuck (h1.1 hf) 8 st]
  · next heq =>
      have hstore := (pagInv_none_iff heq).mp h
      rw [if_pos (by simp [hstore])]

theorem loadUntil_exhausted {store : RStore} {target : Nat} {st : PagState}
    (h : PagInv store st) (hf : st.hasMore = false) :
    (loadUntil store target st).2 = st := by
  unfold loadUntil
  split
  · rfl
  · next hany =>
      split
      · exact loadInBatches_exhausted h hf
      · next tdoc hfind =>
          exfalso
          have htmem : tdoc ∈ store := List.mem_of_find?_eq_some hfind
          have hid : tdoc.id = target := by
            simpa using List.find?_some hfind
          cases hc : st.lastVisible with
          | none =>
              have hstore := (pagInv_none_iff hc).mp h
              rw [hstore] at htmem
              cases htmem
          | some c =>
              have h1 := (pagInv_some_iff hc).mp h
              have hlen := h1.1 hf
              have hcov := h1.2 tdoc
                (by rw [List.take_of_length_le hlen]; exact htmem)
              apply hany
              rw [List.any_eq_true]
              rcases List.mem_map.mp hcov with ⟨m, hm, hmid⟩
              exact ⟨m, hm, by simp [hmid, hid]⟩

theorem pagInv_applyPagOp {store : RStore} {st : PagState} (op : PagOp)
    (h : PagInv store st) : PagInv store (applyPagOp store st op) := by
  cases op with
  | more ok => exact pagInv_loadMore store ok h
  | jump t => exact pagInv_loadUntil h
  | batches t => exact pagInv_loadInBatches h

theorem applyPagOp_hasMore {store : RStore} {st : PagState} (op : PagOp)
    (h : PagInv store st) (hf : st.hasMore = false) :
    (applyPagOp store st op).hasMore = false := by
  cases op with
  | more ok =>
      rw [show applyPagOp store st (PagOp.more ok) = loadMore store ok st
        from rfl]
      rw [loadMore_noop (Or.inl hf)]
      exact hf
  | jump t =>
      rw [show applyPagOp store st (PagOp.jump t) = (loadUntil store t st).2
        from rfl]
      rw [loadUntil_exhausted h hf]
      exact hf
  | batches t =>
      rw [show applyPagOp store st (PagOp.batches t) =
        (loadInBatches store t st).2 from rfl]
      rw [loadInBatches_exhausted h hf]
      exact hf

theorem runPag_hasMore {store : RStore} (ops : List PagOp) :
    ∀ st : PagState, PagInv store st → st.hasMore = false →
      (runPag store st ops).hasMore = false := by
  induction ops with
  | nil => intro st _ hf; exact hf
  | cons op ops ih =>
      intro st h hf
      have h2 := pagInv_applyPagOp op h
      have hf2 := applyPagOp_hasMore op h hf
      simpa [runPag, List.foldl_cons] using ih _ h2 hf2

end ChatApp.Pagination

namespace ChatApp

/-- C1: for every sequence of feed snapshots applied by the message listener
to a well-formed starting list (sorted ascending by timestamp, no duplicate
ids), the resulting local list is again sorted ascending by timestamp with no
duplicate ids; and a single "added" notification whose id is already present
leaves the list unchanged. -/
theorem C1_feed_sorted_nodup (prev : List Message)
    (snaps : List (List Feed.DocChange)) (m : Message) (hwf : Feed.WF prev) :
    Feed.WF (Feed.runFeed prev snaps) ∧
      (m.id ∈ Feed.ids prev →
        Feed.processChanges prev [⟨Feed.ChangeType.added, m⟩] = prev) :=
  ⟨Feed.wf_runFeed snaps prev hwf, fun hmem =>
    Feed.processChanges_added_present hmem⟩

/-- Witness for C1 at a concrete well-formed list and snapshot sequence. -/
theorem C1_feed_sorted_nodup_witness :
    Feed.WF [⟨1, User.ladybug, 10, "a", false, false⟩,
             ⟨2, User.lizard, 20, "b", false, false⟩] ∧
      (Feed.WF (Feed.runFeed
        [⟨1, User.ladybug, 10, "a", false, false⟩,
         ⟨2, User.lizard, 20, "b", false, false⟩]
        [[⟨Feed.ChangeType.added, ⟨2, User.lizard, 5, "b2", false, false⟩⟩],
         [⟨Feed.ChangeType.modified, ⟨3, User.ladybug, 15, "c", false, false⟩⟩],
         [⟨Feed.ChangeType.removed, ⟨1, User.ladybug, 10, "a", false, false⟩⟩]]) ∧
       Feed.processChanges
        [⟨1, User.ladybug, 10, "a", false, false⟩,
         ⟨2, User.lizard, 20, "b", false, false⟩]
        [⟨Feed.ChangeType.added, ⟨1, User.lizard, 99, "dup", false, false⟩⟩] =
        [⟨1, User.ladybug, 10, "a", false, false⟩,
         ⟨2, User.lizard, 20, "b", false, false⟩]) := by
  refine ⟨⟨by decide, by decide⟩, ?_, ?_⟩
  · exact (C1_feed_sorted_nodup _ _
      ⟨1, User.lizard, 99, "dup", false, false⟩ ⟨by decide, by decide⟩).1
  · exact (C1_feed_sorted_nodup _ []
      ⟨1, User.lizard, 99, "dup", false, false⟩ ⟨by decide, by decide⟩).2 (by decide)

/-- C10: a "modified" notification whose id is not in the local list pushes
the message (it is not dropped) and the resulting list is the timestamp sort
of the old list with the message appended; in particular the message is
present afterwards and the list is sorted. -/
theorem C10_modified_absent_inserts (prev : List Message) (m : Message)
    (h : m.id ∉ Feed.ids prev) :
    Feed.processChanges prev [⟨Feed.ChangeType.modified, m⟩] =
        (prev ++ [m]).insertionSort Feed.byTime ∧
      m ∈ Feed.processChanges prev [⟨Feed.ChangeType.modified, m⟩] ∧
      (Feed.processChanges prev [⟨Feed.ChangeType.modified, m⟩]).Sorted
        Feed.byTime := by
  have hc : Feed.containsId prev m.id = false := by
    by_cases hcc : Feed.containsId prev m.id
    · exact absurd (Feed.containsId_eq_true_iff.mp hcc) h
    · simpa using hcc
  have heq : Feed.processChanges prev [⟨Feed.ChangeType.modified, m⟩] =
      (prev ++ [m]).insertionSort Feed.byTime := by
    simp [Feed.processChanges, Feed.applyChange, hc]
  refine ⟨heq, ?_, ?_⟩
  · rw [heq]
    have hperm := List.perm_insertionSort Feed.byTime (prev ++ [m])
    exact hperm.mem_iff.mpr (List.mem_append.mpr (Or.inr (by simp)))
  · rw [heq]
    exact List.sorted_insertionSort Feed.byTime _

/-- Witness for C10 at a concrete list and message. -/
theorem C10_modified_absent_inserts_witness :
    (⟨3, User.ladybug, 15, "c", false, false⟩ : Message).id ∉
        Feed.ids [⟨1, User.ladybug, 10, "a", false, false⟩,
                  ⟨2, User.lizard, 20, "b", false, false⟩] ∧
      ⟨3, User.ladybug, 15, "c", false, false⟩ ∈
        Feed.processChanges
          [⟨1, User.ladybug, 10, "a", false, false⟩,
           ⟨2, User.lizard, 20, "b", false, false⟩]
          [⟨Feed.ChangeType.modified, ⟨3, User.ladybug, 15, "c", false, false⟩⟩] :=
  ⟨by decide,
   (C10_modified_absent_inserts
      [⟨1, User.ladybug, 10, "a", false, false⟩,
       ⟨2, User.lizard, 20, "b", false, false⟩]
      ⟨3, User.ladybug, 15, "c", false, false⟩ (by decide)).2.1⟩

/-- C2 (amended): in every state reachable from an invariant-satisfying state
by sends, listener observations of peer messages, batched read-ack flushes and
presence/connection changes - excluding the pagination-loader read-enqueue
path - every message whose read flag is true also has its delivered flag
true. The unrestricted claim, including the loader path, is refuted by
the counterexample theorem. -/
theorem C2_read_implies_delivered (s : Tracker.St) (ops : List Tracker.Op)
    (h : Tracker.Inv s)
    (hops : ∀ op ∈ ops, op.isLoadEnqueue = false) :
    Tracker.ReadImpliesDelivered (Tracker.runSt s ops) :=
  (Tracker.inv_runSt ops hops s h).2.1

/-- Witness for C2 on a concrete trace: send by the peer, observe, flush. -/
theorem C2_read_implies_delivered_witness :
    Tracker.Inv Tracker.initSt ∧
      Tracker.ReadImpliesDelivered (Tracker.runSt Tracker.initSt
        [Tracker.Op.send 0 User.ladybug, Tracker.Op.observe User.lizard 0,
         Tracker.Op.flush true]) :=
  ⟨Tracker.inv_initSt,
   C2_read_implies_delivered Tracker.initSt
     [Tracker.Op.send 0 User.ladybug, Tracker.Op.observe User.lizard 0,
      Tracker.Op.flush true] Tracker.inv_initSt (by decide)⟩

/-- C2 counterexample: the pagination loaders enqueue read-acks for unread
peer messages without marking them delivered, so after a page-load enqueue
and a successful flush the store holds a message with read true and delivered
false - refuting the claim for the operation set that includes loading
pages. -/
theorem C2_read_implies_delivered_counterexample :
    ∃ p ∈ (Tracker.runSt Tracker.initSt
      [Tracker.Op.send 0 User.ladybug, Tracker.Op.loadEnqueue User.lizard 0,
       Tracker.Op.flush true]).store,
      p.2.read = true ∧ p.2.delivered = false := by
  decide

/-- C5: along every run, every committed read-ack batch was committed in a
state whose local presence flag was Online; and a flush attempted while the
local participant is Offline changes nothing and commits nothing, so ids
enqueued while Offline stay pending. -/
theorem C5_no_commit_while_offline (s : Tracker.St) (ops : List Tracker.Op) :
    (∀ b ∈ (Tracker.run s ops).2, b.2 = true) ∧
      (s.online = false →
        ∀ ok, Tracker.step s (Tracker.Op.flush ok) = (s, none)) :=
  ⟨Tracker.run_commit_online ops s, fun h ok =>
    Tracker.step_flush_offline h ok⟩

/-- Witness for C5: a concrete committed batch carries online = true, and a
concrete offline flush is a no-op. -/
theorem C5_no_commit_while_offline_witness :
    (([5], true) : List Nat × Bool).2 = true ∧
      Tracker.step
        (⟨[(5, ⟨User.ladybug, true, false⟩)], [5], false, true⟩ : Tracker.St)
        (Tracker.Op.flush true) =
        ((⟨[(5, ⟨User.ladybug, true, false⟩)], [5], false, true⟩ :
          Tracker.St), none) :=
  ⟨(C5_no_commit_while_offline
      (⟨[(5, ⟨User.ladybug, true, false⟩)], [5], true, true⟩ : Tracker.St)
      [Tracker.Op.flush true]).1 ([5], true) (by decide),
   (C5_no_commit_while_offline
      (⟨[(5, ⟨User.ladybug, true, false⟩)], [5], false, true⟩ : Tracker.St)
      []).2 (by decide) true⟩

/-- C6: a failed batched read-ack commit leaves the pending-read set exactly
as it was, and the pending set becomes empty only when it already was empty
or through a successful commit performed while online and connected. -/
theorem C6_failed_flush_retains_pending (s : Tracker.St) :
    (Tracker.step s (Tracker.Op.flush false)).1.pending = s.pending ∧
      (∀ op : Tracker.Op, (Tracker.step s op).1.pending = [] →
        s.pending = [] ∨
          (op = Tracker.Op.flush true ∧ s.online = true ∧
            s.connected = true)) := by
  constructor
  · simp only [Tracker.step]
    split
    · rfl
    · split
      · simp
      · rfl
  · intro op h
    cases op with
    | send i u =>
        cases hg : Tracker.getMsg s.store i with
        | some m =>
            simp only [Tracker.step, hg] at h
            exact Or.inl h
        | none =>
            simp only [Tracker.step, hg] at h
            exact Or.inl h
    | observe me i =>
        cases hg : Tracker.getMsg s.store i with
        | none =>
            simp only [Tracker.step, hg] at h
            exact Or.inl h
        | some m =>
            simp only [Tracker.step, hg] at h
            split at h
            · exact Or.inl h
            · split at h <;> split at h
              · exact Or.inl (Tracker.insertPending_ne_nil h)
              · exact Or.inl h
              · exact Or.inl (Tracker.insertPending_ne_nil h)
              · exact Or.inl h
    | loadEnqueue me i =>
        cases hg : Tracker.getMsg s.store i with
        | none =>
            simp only [Tracker.step, hg] at h
            exact Or.inl h
        | some m =>
            simp only [Tracker.step, hg] at h
            split at h
            · exact Or.inl (Tracker.insertPending_ne_nil h)
            · exact Or.inl h
    | flush ok =>
        simp only [Tracker.step] at h
        split at h
        · exact Or.inl h
        · split at h
          · next hoc =>
              split at h
              · next hok =>
                  refine Or.inr ⟨?_, hoc.1, hoc.2⟩
                  rw [hok]
              · exact Or.inl h
          · exact Or.inl h
    | setOnline b => exact Or.inl h
    | setConnected b => exact Or.inl h

/-- Witness for C6 at a concrete state with a nonempty pending set. -/
theorem C6_failed_flush_retains_pending_witness :
    (Tracker.step
        (⟨[(3, ⟨User.ladybug, true, false⟩)], [3], true, true⟩ : Tracker.St)
        (Tracker.Op.flush false)).1.pending = [3] ∧
      (([3] : List Nat) = [] ∨
        (Tracker.Op.flush true = Tracker.Op.flush true ∧ true = true ∧
          true = true)) :=
  ⟨(C6_failed_flush_retains_pending
      (⟨[(3, ⟨User.ladybug, true, false⟩)], [3], true, true⟩ : Tracker.St)).1,
   (C6_failed_flush_retains_pending
      (⟨[(3, ⟨User.ladybug, true, false⟩)], [3], true, true⟩ : Tracker.St)).2
     (Tracker.Op.flush true) (by decide)⟩

/-- C7: `loadMoreMessages` is a no-op (messages, cursor, flags and
`totalLoaded` all unchanged) when `hasMore` is false or a load is already in
flight, and no call to it - guarded, empty, failed or successful - ever
decreases `totalLoaded`. -/
theorem C7_loadMore_noop_and_monotone (store : Pagination.RStore) (ok : Bool)
    (st : Pagination.PagState) :
    ((st.hasMore = false ∨ st.isLoadingMore = true) →
        Pagination.loadMore store ok st = st) ∧
      st.totalLoaded ≤ (Pagination.loadMore store ok st).totalLoaded := by
  refine ⟨fun h => ?_, Pagination.loadMore_totalLoaded store ok st⟩
  have hg : st.hasMore = false ∨ st.isLoadingMore = true ∨
      st.lastVisible = none := by
    rcases h with h | h
    · exact Or.inl h
    · exact Or.inr (Or.inl h)
  unfold Pagination.loadMore
  rw [if_pos hg]

/-- Witness for C7 at a concrete exhausted pagination state. -/
theorem C7_loadMore_noop_and_monotone_witness :
    Pagination.loadMore [] true
        (⟨false, false, some 2, 2, []⟩ : Pagination.PagState) =
        (⟨false, false, some 2, 2, []⟩ : Pagination.PagState) ∧
      (⟨false, false, some 2, 2, []⟩ : Pagination.PagState).totalLoaded ≤
        (Pagination.loadMore [] true
          (⟨false, false, some 2, 2, []⟩ : Pagination.PagState)).totalLoaded :=
  ⟨(C7_loadMore_noop_and_monotone [] true
      (⟨false, false, some 2, 2, []⟩ : Pagination.PagState)).1 (Or.inl rfl),
   (C7_loadMore_noop_and_monotone [] true
      (⟨false, false, some 2, 2, []⟩ : Pagination.PagState)).2⟩

/-- C8 (amended): when the remote history has strictly descending timestamps
(no ties), `loadMessagesUntil` returns true for every id present in the
history - the direct-lookup context window finds it without any fallback
batch; and for an id present neither remotely nor locally it terminates with
false (the fallback walk is bounded to 8 batches by construction). With
timestamp ties the bounded walk can miss an existing deep id - see the
counterexample theorem. -/
theorem C8_scroll_to_message_bounded (store : Pagination.RStore) (target : Nat)
    (st : Pagination.PagState) :
    (store.Pairwise (fun a b => b.timestamp < a.timestamp) →
        target ∈ Feed.ids store →
        (Pagination.loadUntil store target st).1 = true) ∧
      (target ∉ Feed.ids store → target ∉ Pagination.localIds st →
        (Pagination.loadUntil store target st).1 = false) :=
  ⟨fun hsort hmem => Pagination.loadUntil_found st hsort hmem,
   fun hmem hlocal => Pagination.loadUntil_not_found hmem hlocal⟩

/-- Witness for C8 on a concrete two-message history: an existing id is
found, a nonexistent id reports false. -/
theorem C8_scroll_to_message_bounded_witness :
    ([⟨2, User.ladybug, 20, "b", false, false⟩,
      ⟨1, User.lizard, 10, "a", false, false⟩] :
        Pagination.RStore).Pairwise
        (fun a b => b.timestamp < a.timestamp) ∧
      (Pagination.loadUntil
        [⟨2, User.ladybug, 20, "b", false, false⟩,
         ⟨1, User.lizard, 10, "a", false, false⟩] 1 Pagination.initPag).1 =
        true ∧
      (Pagination.loadUntil
        [⟨2, User.ladybug, 20, "b", false, false⟩,
         ⟨1, User.lizard, 10, "a", false, false⟩] 99 Pagination.initPag).1 =
        false :=
  ⟨by decide,
   (C8_scroll_to_message_bounded
      [⟨2, User.ladybug, 20, "b", false, false⟩,
       ⟨1, User.lizard, 10, "a", false, false⟩] 1 Pagination.initPag).1
     (by decide) (by decide),
   (C8_scroll_to_message_bounded
      [⟨2, User.ladybug, 20, "b", false, false⟩,
       ⟨1, User.lizard, 10, "a", false, false⟩] 99 Pagination.initPag).2
     (by decide) (by decide)⟩

/-- C3 (code bug): a due custom schedule for Monday+Wednesday whose target
date is a past Tuesday (day 5 of the epoch, minute 7200; now = minute 7300).
The tick correctly sends nothing, but it writes back
`calculateNextScheduledDate(date, 'custom')`, and that function has no
`custom` case - its `default` branch returns the date unchanged - so the
schedule's target date stays on the past Tuesday instead of advancing
day-by-day to the next Monday, and the same schedule is reprocessed forever.
The skip branch logs "skip sending but update to next occurrence", so the
code contradicts its own stated intent. -/
theorem C3_custom_skip_does_not_advance :
    Sched.dayOfWeek 7200 = Sched.DayOfWeek.tuesday ∧
      Sched.calculateNextScheduledDate 7200 Sched.RecurrenceType.custom =
        7200 ∧
      Sched.tickSchedule 7300
        (⟨"hi", User.ladybug, 7200, Sched.RecurrenceType.custom,
          some [Sched.DayOfWeek.monday, Sched.DayOfWeek.wednesday],
          false, true⟩ : Sched.ScheduledMessage) =
        (none,
          ⟨"hi", User.ladybug, 7200, Sched.RecurrenceType.custom,
            some [Sched.DayOfWeek.monday, Sched.DayOfWeek.wednesday],
            false, true⟩) := by
  refine ⟨by decide, by decide, by decide⟩

/-- C9: starting from a message with empty edit history, two edits with
fresh texts append the two prior texts to the history in order and leave the
live text equal to the most recent edit. -/
theorem C9_edit_history_append (d : Edit.MsgDoc) (a b : String) (t1 t2 : Nat)
    (h0 : d.editHistory = []) (h1 : d.text ≠ a) (h2 : a ≠ b) :
    (Edit.editMessage d a t1).text = a ∧
      (Edit.editMessage d a t1).editHistory = [⟨d.text, t1⟩] ∧
      (Edit.editMessage (Edit.editMessage d a t1) b t2).text = b ∧
      (Edit.editMessage (Edit.editMessage d a t1) b t2).editHistory =
        [⟨d.text, t1⟩, ⟨a, t2⟩] := by
  have e1 : Edit.editMessage d a t1 =
      (⟨a, true, [⟨d.text, t1⟩]⟩ : Edit.MsgDoc) := by
    unfold Edit.editMessage
    rw [if_pos h1]
    unfold Edit.arrayUnion
    rw [h0]
    rw [if_neg (List.not_mem_nil _)]
    rfl
  have h2d : (⟨a, true, [⟨d.text, t1⟩]⟩ : Edit.MsgDoc).text ≠ b := h2
  have e2 : Edit.editMessage (⟨a, true, [⟨d.text, t1⟩]⟩ : Edit.MsgDoc) b t2 =
      (⟨b, true, [⟨d.text, t1⟩, ⟨a, t2⟩]⟩ : Edit.MsgDoc) := by
    unfold Edit.editMessage
    rw [if_pos h2d]
    unfold Edit.arrayUnion
    rw [if_neg ?hnm]
    case hnm =>
      intro hmem
      have hpair : a = d.text ∧ t2 = t1 := by
        simpa [Edit.MessageHistory.mk.injEq] using hmem
      exact h1 hpair.1.symm
    rfl
  rw [e1, e2]
  exact ⟨rfl, rfl, rfl, rfl⟩

/-- Witness for C9 on the spec's concrete scenario: "hello", "hullo", "hi". -/
theorem C9_edit_history_append_witness :
    (Edit.editMessage (⟨"hello", false, []⟩ : Edit.MsgDoc) "hullo" 1).text =
        "hullo" ∧
      (Edit.editMessage (⟨"hello", false, []⟩ : Edit.MsgDoc)
          "hullo" 1).editHistory = [⟨"hello", 1⟩] ∧
      (Edit.editMessage
          (Edit.editMessage (⟨"hello", false, []⟩ : Edit.MsgDoc) "hullo" 1)
          "hi" 2).text = "hi" ∧
      (Edit.editMessage
          (Edit.editMessage (⟨"hello", false, []⟩ : Edit.MsgDoc) "hullo" 1)
          "hi" 2).editHistory = [⟨"hello", 1⟩, ⟨"hullo", 2⟩] :=
  C9_edit_history_append (⟨"hello", false, []⟩ : Edit.MsgDoc) "hullo" "hi" 1 2
    rfl (by decide) (by decide)

/-- C8 counterexample: in a history of 451 messages sharing one timestamp,
the id at depth 450 exists remotely, but the context window covers only the
150 newest of the tied messages and the fallback walk stops after the seed
query plus 8 batches of 50 (covering depths 50 to 449), so
`loadMessagesUntil` returns false for an existing id - refuting the claim
that any id present anywhere in the remote history is found within the
bounded attempt count. -/
theorem C8_scroll_to_message_bounded_counterexample :
    (450 : Nat) ∈ Feed.ids ((List.range 451).map
        (fun n => (⟨n, User.ladybug, 0, "t", false, false⟩ : Message))) ∧
      (Pagination.loadUntil
        ((List.range 451).map
          (fun n => (⟨n, User.ladybug, 0, "t", false, false⟩ : Message)))
        450 Pagination.initPag).1 = false := by
  constructor
  · decide
  · decide

/-- C4 (amended): against a fixed remote history, the initial load
establishes the cursor-coherence invariant `PagInv`, and from any state
satisfying it in which `hasMore` is already false, every sequence of
pagination operations (loadMoreMessages, loadMessagesUntil,
loadMessagesInBatches) keeps `hasMore` false. The original claim, which does
not hold the history fixed, is refuted by the counterexample theorem:
`loadMessagesUntil`'s direct-lookup success path sets `hasMore := true`
unconditionally, so a message arriving after an exhausted initial load flips
`hasMore` back to true without a fresh initial load. -/
theorem C4_hasMore_monotone (store : Pagination.RStore)
    (st0 st : Pagination.PagState) (ops : List Pagination.PagOp)
    (h : Pagination.PagInv store st) (hf : st.hasMore = false) :
    Pagination.PagInv store (Pagination.loadInitial store st0) ∧
      (Pagination.runPag store st ops).hasMore = false :=
  ⟨Pagination.pagInv_loadInitial store st0,
   Pagination.runPag_hasMore ops st h hf⟩

/-- Witness for C4 on a concrete exhausted two-message state, running one
operation of each kind. -/
theorem C4_hasMore_monotone_witness :
    Pagination.PagInv
        [⟨2, User.ladybug, 20, "b", false, false⟩,
         ⟨1, User.lizard, 10, "a", false, false⟩]
        (⟨false, false, some 2, 2,
          [⟨1, User.lizard, 10, "a", false, false⟩,
           ⟨2, User.ladybug, 20, "b", false, false⟩]⟩ :
          Pagination.PagState) ∧
      (Pagination.runPag
        [⟨2, User.ladybug, 20, "b", false, false⟩,
         ⟨1, User.lizard, 10, "a", false, false⟩]
        (⟨false, false, some 2, 2,
          [⟨1, User.lizard, 10, "a", false, false⟩,
           ⟨2, User.ladybug, 20, "b", false, false⟩]⟩ :
          Pagination.PagState)
        [Pagination.PagOp.more true, Pagination.PagOp.batches 9,
         Pagination.PagOp.jump 9]).hasMore = false :=
  ⟨(Pagination.pagInv_some_iff rfl).mpr ⟨fun _ => by decide, by decide⟩,
   (C4_hasMore_monotone
      [⟨2, User.ladybug, 20, "b", false, false⟩,
       ⟨1, User.lizard, 10, "a", false, false⟩]
      Pagination.initPag
      (⟨false, false, some 2, 2,
        [⟨1, User.lizard, 10, "a", false, false⟩,
         ⟨2, User.ladybug, 20, "b", false, false⟩]⟩ : Pagination.PagState)
      [Pagination.PagOp.more true, Pagination.PagOp.batches 9,
       Pagination.PagOp.jump 9]
      ((Pagination.pagInv_some_iff rfl).mpr ⟨fun _ => by decide, by decide⟩)
      rfl).2⟩

/-- C4 counterexample: an initial load of an empty history leaves
`hasMore = false`; after one message arrives in the store, a single
`loadMessagesUntil` call for its id succeeds through the direct-lookup path
and sets `hasMore` back to true without any fresh initial load - refuting
the claim that `loadMessagesUntil` never flips `hasMore` from false to
true. -/
theorem C4_hasMore_monotone_counterexample :
    (Pagination.loadInitial [] Pagination.initPag).hasMore = false ∧
      (Pagination.loadUntil [⟨7, User.ladybug, 100, "x", false, false⟩] 7
          (Pagination.loadInitial [] Pagination.initPag)).1 = true ∧
      (Pagination.loadUntil [⟨7, User.ladybug, 100, "x", false, false⟩] 7
          (Pagination.loadInitial [] Pagination.initPag)).2.hasMore =
        true := by
  refine ⟨by decide, by decide, by decide⟩

end ChatApp
